import Mathlib

/-!
Verification development for the mqtt-macro repository: a shallow embedding of
the topic/pattern model (`mqtt-procmacro/src/lib.rs`), of the code generated by
the derive macro for enums (`mqtt-procmacro/src/enum_impl.rs`), and of the
runtime topic type (`src/topic.rs`), together with theorems settling the
frozen claims about the specification.

Rust strings are modelled as lists of characters, byte buffers as lists of
naturals, and compile-time aborts as `Except` errors.
-/

namespace MqttMacro

/-- Rust strings, modelled as lists of characters. -/
abbrev Str := List Char

/-! ## Runtime topic type, from `src/topic.rs` -/

/-- Model of Rust `str::split('/')`: splitting the empty string yields one
empty segment, every `/` starts a new segment. -/
def splitSlash : Str → List Str
  | [] => [[]]
  | c :: rest =>
    if c = '/' then [] :: splitSlash rest
    else
      match splitSlash rest with
      | [] => [[c]]
      | seg :: segs => (c :: seg) :: segs

/-- An MQTT topic: layers separated by `/`, stored as the raw joined string
(`struct Topic { inner: String }` in `src/topic.rs`). -/
structure Topic where
  inner : Str
deriving DecidableEq

/-- `Topic::new`: the empty topic. -/
def Topic.new : Topic := ⟨[]⟩

/-- `Topic::from_str`: stores the string verbatim. -/
def Topic.from_str (input : Str) : Topic := ⟨input⟩

/-- `Topic::push`: appends a layer, inserting a `/` only when the topic is
currently non-empty. -/
def Topic.push (t : Topic) (layer : Str) : Topic :=
  ⟨(if t.inner.length ≠ 0 then t.inner ++ ['/'] else t.inner) ++ layer⟩

/-- `Topic::layers`: iterator over the `/`-separated layers. -/
def Topic.layers (t : Topic) : List Str := splitSlash t.inner

/-- `Topic::str`: the raw underlying string. -/
def Topic.str (t : Topic) : Str := t.inner

/-! ## Macro-side pattern model, from `mqtt-procmacro/src/lib.rs` -/

namespace ProcMacro

/-- A part of a topic pattern (`enum TopicPart`): a named parameter
(`Ident`, written `<name>` in the attribute) or a literal segment. -/
inductive TopicPart where
  | Ident (name : Str)
  | Literal (text : Str)
deriving DecidableEq

/-- The hand-written `PartialEq for TopicPart`: two literals compare by text;
any pairing that involves an `Ident` counts as equal (a parameter matches
anything at its position). -/
def TopicPart.beq : TopicPart → TopicPart → Bool
  | .Literal a, .Literal b => a = b
  | _, _ => true

/-- The macro-internal topic pattern (`struct Topic { parts: Vec<TopicPart> }`). -/
structure Topic where
  parts : List TopicPart
deriving DecidableEq

/-- The hand-written `PartialEq for Topic`: equal lengths and part-wise
`TopicPart` equality. -/
def Topic.beq (a b : Topic) : Bool :=
  if a.parts.length ≠ b.parts.length then false
  else (a.parts.zip b.parts).all fun p => p.1.beq p.2

/-- One parsed token of `Topic::from_string`: an empty token aborts
(`EmptyTopicLayer`), `<name>` becomes an `Ident`, anything else a `Literal`. -/
def parsePart (p : Str) : Except Unit TopicPart :=
  if p.length = 0 then .error ()
  else if p.head? = some '<' ∧ p.getLast? = some '>' then
    .ok (.Ident ((p.drop 1).dropLast))
  else .ok (.Literal p)

/-- `Topic::from_string`: the empty input yields an empty pattern; otherwise
the input is split on `/` and each token parsed, aborting on empty tokens. -/
def Topic.from_string (input : Str) : Except Unit Topic :=
  if input = [] then .ok ⟨[]⟩
  else do
    let parts ← (splitSlash input).mapM parsePart
    .ok ⟨parts⟩

/-- Accumulator of `Topic::filter_string`: each `Ident` contributes `+/`,
each `Literal` contributes its text followed by `/`. -/
def filterAcc : List TopicPart → Str
  | [] => []
  | .Ident _ :: rest => '+' :: '/' :: filterAcc rest
  | .Literal lit :: rest => lit ++ '/' :: filterAcc rest

/-- `Topic::filter_string`: builds the trailing-slash form and pops the final
character. -/
def Topic.filter_string (t : Topic) : Str := (filterAcc t.parts).dropLast

/-- The collision probe of `impl_for_enum`: a new pattern collides when some
previously registered pattern compares equal under the hand-written
`PartialEq` (`topics.iter().find(|(_, t, _)| *t == topic)`). -/
def collides (prev : List Topic) (t : Topic) : Bool :=
  prev.any fun p => p.beq t

/-- Worker for `registerOk`: processes patterns in declaration order,
failing as soon as one collides with an earlier one. -/
def registerGo (acc : List Topic) : List Topic → Bool
  | [] => true
  | t :: rest => if collides acc t then false else registerGo (acc ++ [t]) rest

/-- Whole-enum registration succeeds when no variant pattern collides with an
earlier one (the abort in `impl_for_enum`). -/
def registerOk (ts : List Topic) : Bool := registerGo [] ts

/-- The list handed to `all_generic_topics`: every variant's filter string,
in declaration order (`topics.iter().map(|t| t.1.filter_string()).collect()`). -/
def all_generic_topics (ts : List Topic) : List Str :=
  ts.map Topic.filter_string

end ProcMacro

/-! ## Deserialize error type, from `src/serde_impl.rs` -/

/-- `MqttDeserializeError`; the `serde_json::Error` payload of `Serde` is
opaque and omitted (the hand-written `PartialEq` already identifies all
`Serde` values). -/
inductive MqttDeserializeError where
  | MissingTopicLayer (layer : Str)
  | UnknownLayer
  | NotUtf8
  | Invalid
  | InvalidTopicLayer (layer value : Str)
  | Serde
deriving DecidableEq

/-! ## Generated per-variant code, from `mqtt-procmacro/src/enum_impl.rs`

One registered message shape (enum variant) is modelled by a `Schema` over a
value domain `V`: its topic pattern, its optional payload field, the
`Display`/`FromStr` conversions used for topic-bound fields, and the payload
(de)serializer pair (`serde_json_serialize`/`serde_json_deserialize` or the
`serialize_using`/`deserialize_using` overrides). -/

structure Schema (V : Type) where
  /-- The variant's topic pattern, in segment order. -/
  pattern : List ProcMacro.TopicPart
  /-- The field bound to the payload, when `payload = "<name>"` is given. -/
  payload : Option Str
  /-- `Display::to_string` of the field bound to the given parameter name. -/
  enc : Str → V → Str
  /-- `str::parse` into the type of the field bound to the given parameter
  name; `none` models a `FromStr` failure. -/
  dec : Str → Str → Option V
  /-- The payload serializer (appends bytes on success). -/
  pser : V → Except Unit (List Nat)
  /-- The payload deserializer. -/
  pdeser : List Nat → Except MqttDeserializeError V

/-- The topic-walking half of a generated `__mqttitem__parse_*` function:
consumes one input segment per pattern part, binding parameter values, and
returns the bindings together with the unconsumed input segments.
A literal part fails with `MissingTopicLayer(text)` both when the input is
exhausted and when the present segment differs from the literal; a parameter
part fails with `MissingTopicLayer(name)` when the input is exhausted and
with `InvalidTopicLayer(name, value)` when the segment does not parse. -/
def parseTopicWalk {V : Type} (S : Schema V) :
    List ProcMacro.TopicPart → List Str →
    Except MqttDeserializeError (List (Str × V) × List Str)
  | [], segs => .ok ([], segs)
  | .Ident name :: ps, segs =>
    match segs with
    | [] => .error (.MissingTopicLayer name)
    | v :: rest =>
      match S.dec name v with
      | none => .error (.InvalidTopicLayer name v)
      | some val =>
        match parseTopicWalk S ps rest with
        | .error e => .error e
        | .ok (binds, left) => .ok ((name, val) :: binds, left)
  | .Literal lit :: ps, segs =>
    match segs with
    | [] => .error (.MissingTopicLayer lit)
    | v :: rest =>
      if v = lit then parseTopicWalk S ps rest
      else .error (.MissingTopicLayer lit)

/-- A full generated `__mqttitem__parse_*` function: walk the topic, then
decode the payload when a payload field is bound.  The result is the list of
field bindings of the constructed variant value. -/
def parseVariant {V : Type} (S : Schema V) (segs : List Str) (payload : List Nat) :
    Except MqttDeserializeError (List (Str × V)) :=
  match parseTopicWalk S S.pattern segs with
  | .error e => .error e
  | .ok (binds, _) =>
    match S.payload with
    | none => .ok binds
    | some pname =>
      match S.pdeser payload with
      | .error e => .error e
      | .ok v => .ok (binds ++ [(pname, v)])

/-- The segment string pushed for one pattern part by the generated
`push_topic_and_payload` arm: a literal part pushes its text, a parameter
part pushes the bound field's `Display` form.  `σ` maps a field name to the
field's value. -/
def encSeg {V : Type} (S : Schema V) (σ : Str → V) : ProcMacro.TopicPart → Str
  | .Ident name => S.enc name (σ name)
  | .Literal lit => lit

/-- All segment strings pushed by the generated `push_topic_and_payload`
arm, in pattern order. -/
def encodeSegs {V : Type} (S : Schema V) (σ : Str → V) : List Str :=
  S.pattern.map (encSeg S σ)

/-- One generated `push_topic_and_payload` match arm: push every pattern
segment onto the topic, then serialize the payload field (if any) into the
payload buffer. -/
def push_topic_and_payload {V : Type} (S : Schema V) (σ : Str → V)
    (topic : Topic) (payload : List Nat) : Except Unit (Topic × List Nat) :=
  let t := (encodeSegs S σ).foldl Topic.push topic
  match S.payload with
  | none => .ok (t, payload)
  | some pname =>
    match S.pser (σ pname) with
    | .error e => .error e
    | .ok bytes => .ok (t, payload ++ bytes)

/-- The default `MqttItem::into_topic_and_payload`: starts from the empty
topic and an empty payload buffer. -/
def into_topic_and_payload {V : Type} (S : Schema V) (σ : Str → V) :
    Except Unit (Topic × List Nat) :=
  push_topic_and_payload S σ Topic.new []

/-- A registry: the schemas of all variants of one derived enum, in
declaration order. -/
structure Registry (V : Type) where
  variants : List (Schema V)

/-- Pattern length of an indexed schema (the `topic_len` sort key). -/
def lenOf {V : Type} (x : Nat × Schema V) : Nat := x.2.pattern.length

/-- One step of the stable descending insertion modelling
`generator.sort_by(|a, b| b.2.cmp(&a.2))`: an element moves ahead only of
strictly shorter patterns, so declaration order is preserved on ties. -/
def insertDesc {V : Type} (x : Nat × Schema V) :
    List (Nat × Schema V) → List (Nat × Schema V)
  | [] => [x]
  | y :: ys => if lenOf y ≤ lenOf x then x :: y :: ys else y :: insertDesc x ys

/-- Stable sort by descending pattern length (Rust's stable `sort_by`). -/
def sortByLenDesc {V : Type} : List (Nat × Schema V) → List (Nat × Schema V)
  | [] => []
  | x :: xs => insertDesc x (sortByLenDesc xs)

/-- The dispatch order used by the generated `from_topic_and_payload`:
variants paired with their declaration index, sorted by descending pattern
length, ties in declaration order. -/
def dispatchList {V : Type} (R : Registry V) : List (Nat × Schema V) :=
  sortByLenDesc R.variants.enum

/-- The candidate loop of the generated `from_topic_and_payload`: return the
first parse that succeeds (tagged with the variant's declaration index),
discarding every per-candidate error. -/
def firstOk {V : Type} :
    List (Nat × Schema V) → List Str → List Nat →
    Except MqttDeserializeError (Nat × List (Str × V))
  | [], _, _ => .error .Invalid
  | (i, S) :: rest, segs, payload =>
    match parseVariant S segs payload with
    | .ok binds => .ok (i, binds)
    | .error _ => firstOk rest segs payload

/-- The generated `MqttItem::from_topic_and_payload` for a whole enum. -/
def Registry.from_topic_and_payload {V : Type} (R : Registry V)
    (topic : Topic) (payload : List Nat) :
    Except MqttDeserializeError (Nat × List (Str × V)) :=
  firstOk (dispatchList R) topic.layers payload

/-- Whether an `Except` value is a success. -/
def exceptIsOk {ε α : Type} : Except ε α → Bool
  | .ok _ => true
  | .error _ => false

/-! ## Spec-side characterisations

These definitions follow the specification's words and are compared against
the source-derived definitions above. -/

/-- Position compatibility from the spec's equivalence rule: both segments
literal with identical text, or at least one of the two a parameter. -/
def partCompat : ProcMacro.TopicPart → ProcMacro.TopicPart → Prop
  | .Literal a, .Literal b => a = b
  | _, _ => True

instance : ∀ a b, Decidable (partCompat a b) := by
  intro a b
  cases a <;> cases b <;> simp only [partCompat] <;> infer_instance

/-- Pattern equivalence, modelled from the spec: equal length and, at every
position, either both segments are literals with identical text or at least
one of the two segments is a parameter. -/
def equivSpec (a b : List ProcMacro.TopicPart) : Prop :=
  a.length = b.length ∧ ∀ p ∈ a.zip b, partCompat p.1 p.2

instance (a b : List ProcMacro.TopicPart) : Decidable (equivSpec a b) := by
  unfold equivSpec; infer_instance

/-- Filter rendering of one pattern segment, modelled from the spec: a
parameter becomes the single-level wildcard `+`, a literal is copied
verbatim. -/
def renderPart : ProcMacro.TopicPart → Str
  | .Ident _ => ['+']
  | .Literal lit => lit

/-- The tail of a `/`-join: every segment is preceded by one `/`. -/
def slashTail : List Str → Str
  | [] => []
  | s :: rest => '/' :: s ++ slashTail rest

/-- Segments rejoined with `/` (no trailing separator). -/
def joinSlash : List Str → Str
  | [] => []
  | s :: rest => s ++ slashTail rest

/-- Well-formedness of one pattern part as produced by `Topic::from_string`:
literal text is a non-empty token of a `/`-split, hence non-empty and free
of `/`. -/
def WFPart : ProcMacro.TopicPart → Prop
  | .Ident _ => True
  | .Literal lit => lit ≠ [] ∧ '/' ∉ lit

instance : ∀ p, Decidable (WFPart p) := by
  intro p; cases p <;> simp only [WFPart] <;> infer_instance

/-- The parameter names of a pattern, in segment order. -/
def paramNames : List ProcMacro.TopicPart → List Str
  | [] => []
  | .Ident n :: rest => n :: paramNames rest
  | .Literal _ :: rest => paramNames rest

/-- The field bindings of a variant value: every topic-bound field in
pattern order, then the payload field, exactly as the generated parse
function binds them. -/
def variantValue {V : Type} (S : Schema V) (σ : Str → V) : List (Str × V) :=
  (paramNames S.pattern).map (fun n => (n, σ n)) ++
    (match S.payload with
     | some p => [(p, σ p)]
     | none => [])

/-! ## Field-coverage validation, from `generate_variant_impl`

The macro keeps a `not_processed_fields` copy of the declared fields;
`find_field` aborts with `UnknownField` for an undeclared name, and
`process_field` aborts with the duplicate-use error when the name is no
longer pending, else removes its first occurrence.  After the payload field
and every pattern parameter have been processed, leftover pending fields
abort with the unused-fields error. -/

/-- Registration-time errors (the macro's `abort!` diagnostics, under the
spec's names). -/
inductive RegError where
  | UnknownField (name : Str)
  | DuplicateFieldUse (name : Str)
  | UnusedFields (names : List Str)
deriving DecidableEq

/-- One `find_field` + `process_field` step on the pending-field list. -/
def processField (declared : List Str) (pending : List Str) (name : Str) :
    Except RegError (List Str) :=
  if name ∈ declared then
    if name ∈ pending then .ok (pending.erase name)
    else .error (.DuplicateFieldUse name)
  else .error (.UnknownField name)

/-- Sequential consumption of a list of field names. -/
def consumeAll (declared : List Str) (pending : List Str) :
    List Str → Except RegError (List Str)
  | [] => .ok pending
  | n :: ns =>
    match processField declared pending n with
    | .error e => .error e
    | .ok pending2 => consumeAll declared pending2 ns

/-- The names consumed by a variant, in processing order: the payload field
first (it is resolved before the segment loop), then every pattern
parameter in segment order. -/
def consumedNames (payload : Option Str) (pattern : List ProcMacro.TopicPart) :
    List Str :=
  (match payload with
   | some p => [p]
   | none => []) ++ paramNames pattern

/-- The field-coverage validation of `generate_variant_impl`: consume the
payload binding and every parameter binding, then require that no declared
field is left pending. -/
def validateVariant (declared : List Str) (payload : Option Str)
    (pattern : List ProcMacro.TopicPart) : Except RegError Unit :=
  match consumeAll declared declared (consumedNames payload pattern) with
  | .error e => .error e
  | .ok pending => if pending = [] then .ok () else .error (.UnusedFields pending)

/-! ## A concrete value domain

Used to instantiate the generic theorems on the shapes of the repository's
test enum (`src/tests.rs`). -/

/-- Concrete field values: unsigned integers (`u32`) or strings. -/
inductive Val where
  | n (x : Nat)
  | s (x : Str)
deriving DecidableEq

/-- Decimal digit value of a character, if any. -/
def decDigit (c : Char) : Option Nat :=
  if '0' ≤ c ∧ c ≤ '9' then some (c.toNat - '0'.toNat) else none

/-- Model of `u32::from_str` on plain digit strings: rejects the empty
string, any non-digit character, and values outside the `u32` range. -/
def parseNat (s : Str) : Option Nat :=
  match s with
  | [] => none
  | _ =>
    match s.foldl (fun acc c => acc.bind fun a => (decDigit c).map fun d => a * 10 + d)
        (some 0) with
    | none => none
    | some v => if v < 2 ^ 32 then some v else none

/-- Decimal rendering of a natural number (`Display for u32`). -/
def natStr (x : Nat) : Str := Nat.toDigits 10 x

/-- `Display` for a concrete value. -/
def display : Val → Str
  | .n x => natStr x
  | .s s => s

/-- `FromStr` into a `u32` field. -/
def natDec (s : Str) : Option Val := (parseNat s).map .n

/-- `FromStr` into a `String` field (infallible). -/
def strDec (s : Str) : Option Val := some (.s s)

/-- Model of the default `serde_json` codec on a `String` field holding no
escape-worthy characters: the serialized bytes are the quoted character
codes. -/
def jsonStrSer : Val → Except Unit (List Nat)
  | .s s => .ok (('"' :: s ++ ['"']).map Char.toNat)
  | .n _ => .error ()

/-- A byte list as characters. -/
def bytesChars (bs : List Nat) : Str := bs.map Char.ofNat

/-- Model of `serde_json_deserialize` into a `String` field: the payload
must be a quoted string without interior quotes. -/
def jsonStrDeser (bs : List Nat) : Except MqttDeserializeError Val :=
  match bytesChars bs with
  | [] => .error .Serde
  | c :: rest =>
    if c = '"' ∧ rest.getLast? = some '"' ∧ '"' ∉ rest.dropLast then
      .ok (.s rest.dropLast)
    else .error .Serde

/-! ## Concrete schemas

Shapes taken from the repository's tests (`src/tests.rs`) and from the
claims' examples. -/

/-- Parse a raw segment into the field named `name`, where `nats` lists the
variant's `u32` fields; every other field is a `String`. -/
def decFor (nats : List Str) (name : Str) (raw : Str) : Option Val :=
  if name ∈ nats then natDec raw else strDec raw

/-- The shape of `Variant3`: `topic = "<id>", payload = "<name>"` over
fields `name: String, id: u32`. -/
def schemaV3 : Schema Val where
  pattern := [.Ident "id".data]
  payload := some "name".data
  enc := fun _ v => display v
  dec := decFor ["id".data]
  pser := jsonStrSer
  pdeser := jsonStrDeser

/-- The shape of `Variant1`: `topic = "<id>/<name>", payload = "<payload>"`
over fields `name: String, id: u32, payload: String`. -/
def schemaV1 : Schema Val where
  pattern := [.Ident "id".data, .Ident "name".data]
  payload := some "payload".data
  enc := fun _ v => display v
  dec := decFor ["id".data]
  pser := jsonStrSer
  pdeser := jsonStrDeser

/-- The shape of `Variant4`: `topic = "v4/hello/world/<0>"` over the single
positional `u32` field `0`, with no payload binding. -/
def schemaV4 : Schema Val where
  pattern := [.Literal "v4".data, .Literal "hello".data, .Literal "world".data,
    .Ident "0".data]
  payload := none
  enc := fun _ v => display v
  dec := decFor ["0".data]
  pser := jsonStrSer
  pdeser := jsonStrDeser

/-- A registry registering the length-1 shape before the length-2 shape, as
in the specificity-ordering claim. -/
def registryOrd : Registry Val := ⟨[schemaV3, schemaV1]⟩

/-- A shape with the empty topic pattern: `topic = "", payload = "<x>"` over
the single field `x: String`.  `Topic::from_string` accepts the empty
pattern string and produces a zero-segment pattern. -/
def schemaEmptyPat : Schema Val where
  pattern := []
  payload := some "x".data
  enc := fun _ v => display v
  dec := decFor []
  pser := jsonStrSer
  pdeser := jsonStrDeser

/-- A shape with pattern `"<y>"` over `y: String` and payload `p: String`. -/
def schemaOneParam : Schema Val where
  pattern := [.Ident "y".data]
  payload := some "p".data
  enc := fun _ v => display v
  dec := decFor []
  pser := jsonStrSer
  pdeser := jsonStrDeser

/-- The registry refuting the unrestricted round-trip law: the zero-length
pattern registered first, a one-parameter pattern second.  The two patterns
have different lengths, so registration succeeds. -/
def registryEmpty : Registry Val := ⟨[schemaEmptyPat, schemaOneParam]⟩

/-! ## Lemmas about `splitSlash` and `/`-joining -/

theorem splitSlash_ne_nil (s : Str) : splitSlash s ≠ [] := by
  induction s with
  | nil => simp [splitSlash]
  | cons c rest ih =>
    by_cases hc : c = '/'
    · simp [splitSlash, hc]
    · rcases h : splitSlash rest with _ | ⟨seg, segs⟩
      · exact absurd h ih
      · simp [splitSlash, hc, h]

theorem splitSlash_length (s : Str) :
    (splitSlash s).length = s.count '/' + 1 := by
  induction s with
  | nil => simp [splitSlash]
  | cons c rest ih =>
    by_cases hc : c = '/'
    · simp [splitSlash, hc, List.count_cons, ih]
    · rcases h : splitSlash rest with _ | ⟨seg, segs⟩
      · exact absurd h (splitSlash_ne_nil rest)
      · rw [h] at ih
        simp only [List.length_cons] at ih
        simp [splitSlash, hc, h, List.count_cons, Ne.symm hc, ← ih]

theorem splitSlash_no_slash (s : Str) (h : '/' ∉ s) : splitSlash s = [s] := by
  induction s with
  | nil => rfl
  | cons c rest ih =>
    have hc : c ≠ '/' := fun hc => h (hc ▸ List.mem_cons_self c rest)
    have hrest : '/' ∉ rest := fun hm => h (List.mem_cons_of_mem c hm)
    simp [splitSlash, hc, ih hrest]

theorem splitSlash_append (s : Str) (r : Str) (h : '/' ∉ s) :
    splitSlash (s ++ '/' :: r) = s :: splitSlash r := by
  induction s with
  | nil => simp [splitSlash]
  | cons c rest ih =>
    have hc : c ≠ '/' := fun hc => h (hc ▸ List.mem_cons_self c rest)
    have hrest : '/' ∉ rest := fun hm => h (List.mem_cons_of_mem c hm)
    simp [splitSlash, hc, ih hrest]

theorem slashTail_cons_ne_nil (s : Str) (rest : List Str) :
    slashTail (s :: rest) ≠ [] := by
  simp [slashTail]

theorem joinSlash_cons_cons (s r : Str) (rest : List Str) :
    joinSlash (s :: r :: rest) = s ++ '/' :: joinSlash (r :: rest) := by
  simp [joinSlash, slashTail]

theorem splitSlash_joinSlash (segs : List Str) (hne : segs ≠ [])
    (hnoslash : ∀ s ∈ segs, '/' ∉ s) :
    splitSlash (joinSlash segs) = segs := by
  induction segs with
  | nil => exact absurd rfl hne
  | cons s rest ih =>
    rcases rest with _ | ⟨r, rs⟩
    · have : joinSlash [s] = s := by simp [joinSlash, slashTail]
      rw [this, splitSlash_no_slash s (hnoslash s (List.mem_cons_self s []))]
    · rw [joinSlash_cons_cons]
      rw [splitSlash_append s _ (hnoslash s (List.mem_cons_self s _))]
      rw [ih (by simp) (fun x hx => hnoslash x (List.mem_cons_of_mem s hx))]

/-! ## Claim C9 -/

/-- C9: for every topic, `layers()` yields exactly one segment more than the
number of `/` characters in the topic's string; in particular a topic built
from the empty string (`Topic::new()` or `Topic::from_str("")`) yields
exactly one segment, the empty string, not zero segments. -/
theorem layers_count_c9 :
    (∀ t : Topic, t.layers.length = t.inner.count '/' + 1) ∧
    Topic.new.layers = [[]] ∧ (Topic.from_str []).layers = [[]] := by
  refine ⟨fun t => splitSlash_length t.inner, rfl, rfl⟩

/-! ## Claim C2: collision detection -/

/-- Renaming of parameter names, leaving literals untouched. -/
def renameParams (f : Str → Str) : List ProcMacro.TopicPart → List ProcMacro.TopicPart :=
  List.map fun p =>
    match p with
    | .Ident n => .Ident (f n)
    | .Literal l => .Literal l

theorem partCompat_beq (a b : ProcMacro.TopicPart) :
    a.beq b = true ↔ partCompat a b := by
  cases a <;> cases b <;> simp [ProcMacro.TopicPart.beq, partCompat]

theorem topicBeq_iff (a b : ProcMacro.Topic) :
    a.beq b = true ↔ equivSpec a.parts b.parts := by
  unfold ProcMacro.Topic.beq equivSpec
  by_cases h : a.parts.length = b.parts.length
  · simp [h, List.all_eq_true, partCompat_beq]
  · simp [h]

/-- C2: registering a schema fails with the ambiguous-topic registration
error exactly when some previously registered schema's pattern compares
equal to it, and that comparison is precisely the spec's equivalence: equal
length, and at every position either two identical literals or at least one
parameter.  Parameter names are irrelevant to the check, so patterns of
different length, or with two distinct literals at some position, never
trigger it. -/
theorem collides_iff_equiv_c2 :
    (∀ (prev : List ProcMacro.Topic) (t : ProcMacro.Topic),
      ProcMacro.collides prev t = true ↔ ∃ p ∈ prev, equivSpec p.parts t.parts) ∧
    (∀ (f g : Str → Str) (a b : List ProcMacro.TopicPart),
      equivSpec (renameParams f a) (renameParams g b) ↔ equivSpec a b) := by
  constructor
  · intro prev t
    unfold ProcMacro.collides
    rw [List.any_eq_true]
    exact ⟨fun ⟨p, hp, hb⟩ => ⟨p, hp, (topicBeq_iff p t).mp hb⟩,
      fun ⟨p, hp, he⟩ => ⟨p, hp, (topicBeq_iff p t).mpr he⟩⟩
  · intro f g a b
    unfold equivSpec renameParams
    rw [List.zip_map]
    constructor
    · rintro ⟨hlen, hall⟩
      refine ⟨by simpa using hlen, fun p hp => ?_⟩
      have := hall _ (List.mem_map_of_mem _ hp)
      rcases p with ⟨x, y⟩
      cases x <;> cases y <;> simpa [partCompat] using this
    · rintro ⟨hlen, hall⟩
      refine ⟨by simpa using hlen, fun p hp => ?_⟩
      rcases List.mem_map.mp hp with ⟨⟨x, y⟩, hxy, rfl⟩
      have := hall _ hxy
      cases x <;> cases y <;> simpa [partCompat] using this

/-! ## Claim C5: the literal-mismatch error

The claim asserts a `LayerMismatch(text, actual)` error distinct from the
missing-segment error.  The generated code returns `MissingTopicLayer(text)`
in both situations (`enum_impl.rs` lines 343-354), so the two errors
coincide; the claim is refuted and amended below. -/

/-- C5 counterexample: walking the literal segment `v4` against the present
but unequal input segment `b` produces exactly the error produced when the
segment is absent — `MissingTopicLayer("v4")` both times, carrying no
`actual` value and not distinct from the missing-segment error. -/
theorem literal_mismatch_ce_c5 :
    parseVariant schemaV4 ["b".data] [] =
      .error (.MissingTopicLayer "v4".data) ∧
    parseVariant schemaV4 ([] : List Str) [] =
      .error (.MissingTopicLayer "v4".data) := by
  exact ⟨rfl, rfl⟩

/-- C5 amended: during a candidate's topic walk, a `Literal(text)` pattern
segment whose corresponding input segment is present but unequal to `text`
fails that candidate with `MissingTopicLayer(text)` — the same error
constructor, with the same argument, used when the corresponding input
segment is absent; no separate mismatch error carrying the actual segment
exists. -/
theorem literal_mismatch_c5 {V : Type} (S : Schema V) (lit : Str)
    (ps : List ProcMacro.TopicPart) (seg : Str) (rest : List Str)
    (h : seg ≠ lit) :
    parseTopicWalk S (.Literal lit :: ps) (seg :: rest) =
      .error (.MissingTopicLayer lit) ∧
    parseTopicWalk S (.Literal lit :: ps) [] =
      .error (.MissingTopicLayer lit) := by
  exact ⟨by simp [parseTopicWalk, h], rfl⟩

/-- C5 witness: the amended theorem applied to the literal `v4` of
`schemaV4` and the unequal input segment `b`. -/
theorem literal_mismatch_c5_witness :
    "b".data ≠ "v4".data ∧
    parseTopicWalk schemaV4 (.Literal "v4".data :: [.Literal "hello".data,
      .Literal "world".data, .Ident "0".data]) ["b".data] =
      .error (.MissingTopicLayer "v4".data) := by
  exact ⟨by decide,
    (literal_mismatch_c5 schemaV4 "v4".data
      [.Literal "hello".data, .Literal "world".data, .Ident "0".data]
      "b".data [] (by decide)).1⟩

/-! ## Claim C10: payload insensitivity without a payload binding -/

/-- C10: for a shape with no payload field binding, the generated parse
function never reads the payload: its result is identical for any two
payload byte buffers, so the candidate's outcome depends only on the topic. -/
theorem payload_insensitive_c10 {V : Type} (S : Schema V)
    (h : S.payload = none) (segs : List Str) (pl1 pl2 : List Nat) :
    parseVariant S segs pl1 = parseVariant S segs pl2 := by
  unfold parseVariant
  cases parseTopicWalk S S.pattern segs with
  | error e => rfl
  | ok p => rcases p with ⟨binds, left⟩; simp [h]

/-- C10 witness: `schemaV4` (pattern `v4/hello/world/<0>`, no payload
binding) parses the same with payload bytes `[1, 2]` and with none. -/
theorem payload_insensitive_c10_witness :
    schemaV4.payload = none ∧
    parseVariant schemaV4 ["v4".data, "hello".data, "world".data, "7".data]
        [1, 2] =
      parseVariant schemaV4 ["v4".data, "hello".data, "world".data, "7".data]
        [] := by
  exact ⟨rfl, payload_insensitive_c10 schemaV4 rfl _ [1, 2] []⟩

/-! ## Claim C7: trailing input segments beyond the pattern are ignored -/

theorem walk_append {V : Type} (S : Schema V) (p : List ProcMacro.TopicPart)
    (segs extra : List Str) (h : p.length ≤ segs.length) :
    parseTopicWalk S p (segs ++ extra) =
      match parseTopicWalk S p segs with
      | .ok (b, left) => .ok (b, left ++ extra)
      | .error e => .error e := by
  induction p generalizing segs with
  | nil => simp [parseTopicWalk]
  | cons part ps ih =>
    cases segs with
    | nil => simp at h
    | cons seg rest =>
      have hrest : ps.length ≤ rest.length := by
        simpa [Nat.succ_le_succ_iff] using h
      cases part with
      | Ident name =>
        simp only [parseTopicWalk, List.cons_append]
        cases S.dec name seg with
        | none => rfl
        | some val =>
          rw [ih rest hrest]
          cases parseTopicWalk S ps rest with
          | error e => rfl
          | ok pr => rcases pr with ⟨b, left⟩; rfl
      | Literal lit =>
        simp only [parseTopicWalk, List.cons_append]
        by_cases hl : seg = lit
        · simp only [hl, if_true]
          exact ih rest hrest
        · simp [hl]

/-- C7: a candidate's decode never checks input segments beyond its
pattern's declared length: whenever the input supplies at least as many
segments as the pattern, appending arbitrary extra trailing segments leaves
the candidate's result (success value or failure) unchanged — so an input
whose first `n` segments pass the per-position checks is accepted even with
extra trailing segments. -/
theorem extra_segments_ignored_c7 {V : Type} (S : Schema V)
    (segs extra : List Str) (pl : List Nat)
    (h : S.pattern.length ≤ segs.length) :
    parseVariant S (segs ++ extra) pl = parseVariant S segs pl := by
  unfold parseVariant
  rw [walk_append S S.pattern segs extra h]
  cases parseTopicWalk S S.pattern segs with
  | error e => rfl
  | ok pr => rcases pr with ⟨b, left⟩; rfl

/-- C7 witness: `schemaV3` (pattern `<id>`, length 1) parses the topic
`3/junk` exactly as it parses `3`: the trailing segment is ignored. -/
theorem extra_segments_ignored_c7_witness :
    schemaV3.pattern.length ≤ ["3".data].length ∧
    parseVariant schemaV3 (["3".data] ++ ["junk".data])
        (('"' :: "name3".data ++ ['"']).map Char.toNat) =
      parseVariant schemaV3 ["3".data]
        (('"' :: "name3".data ++ ['"']).map Char.toNat) := by
  exact ⟨by decide, extra_segments_ignored_c7 schemaV3 ["3".data] ["junk".data]
    (('"' :: "name3".data ++ ['"']).map Char.toNat) (by decide)⟩

/-! ## Claim C6: the terminal Invalid fallback -/

theorem firstOk_all_fail {V : Type} (l : List (Nat × Schema V))
    (segs : List Str) (pl : List Nat)
    (h : ∀ x ∈ l, exceptIsOk (parseVariant x.2 segs pl) = false) :
    firstOk l segs pl = .error .Invalid := by
  induction l with
  | nil => rfl
  | cons x rest ih =>
    rcases x with ⟨i, S⟩
    have hx := h (i, S) (List.mem_cons_self _ _)
    simp only [firstOk]
    cases hp : parseVariant S segs pl with
    | ok b => rw [hp] at hx; simp [exceptIsOk] at hx
    | error e => exact ih fun y hy => h y (List.mem_cons_of_mem _ hy)

/-- C6: when every candidate in dispatch order fails to parse the given
topic/payload pair, `from_topic_and_payload` returns exactly the terminal
`Invalid` error — the individual per-candidate errors are discarded, never
surfaced. -/
theorem invalid_fallback_c6 {V : Type} (R : Registry V) (t : Topic)
    (pl : List Nat)
    (h : ∀ x ∈ dispatchList R, exceptIsOk (parseVariant x.2 t.layers pl) = false) :
    R.from_topic_and_payload t pl = .error .Invalid := by
  exact firstOk_all_fail (dispatchList R) t.layers pl h

/-- C6 witness: on the registry of `<id>` and `<id>/<name>`, the topic
`zzz` (whose single segment parses as no candidate's `u32` field) decodes to
the terminal `Invalid` error. -/
theorem invalid_fallback_c6_witness :
    (∀ x ∈ dispatchList registryOrd,
      exceptIsOk (parseVariant x.2 (Topic.from_str "zzz".data).layers []) = false) ∧
    registryOrd.from_topic_and_payload (Topic.from_str "zzz".data) [] =
      .error .Invalid := by
  exact ⟨by decide, invalid_fallback_c6 registryOrd (Topic.from_str "zzz".data) []
    (by decide)⟩

/-! ## Claim C8: filter strings -/

/-- The trailing-slash join: every segment is followed by one `/`. -/
def trailJoin : List Str → Str
  | [] => []
  | s :: rest => s ++ '/' :: trailJoin rest

theorem filterAcc_eq (parts : List ProcMacro.TopicPart) :
    ProcMacro.filterAcc parts = trailJoin (parts.map renderPart) := by
  induction parts with
  | nil => rfl
  | cons part rest ih =>
    cases part <;> simp [ProcMacro.filterAcc, trailJoin, renderPart, ih]

theorem trailJoin_ne_nil (s : Str) (rest : List Str) :
    trailJoin (s :: rest) ≠ [] := by
  simp [trailJoin]

theorem trailJoin_dropLast (l : List Str) :
    (trailJoin l).dropLast = joinSlash l := by
  induction l with
  | nil => rfl
  | cons s rest ih =>
    cases rest with
    | nil =>
      show (s ++ ['/']).dropLast = joinSlash [s]
      rw [List.dropLast_concat]
      simp [joinSlash, slashTail]
    | cons r rs =>
      show (s ++ '/' :: trailJoin (r :: rs)).dropLast = joinSlash (s :: r :: rs)
      have : s ++ '/' :: trailJoin (r :: rs) = (s ++ ['/']) ++ trailJoin (r :: rs) := by
        simp
      rw [this, List.dropLast_append_of_ne_nil _ (trailJoin_ne_nil r rs),
        joinSlash_cons_cons, ih]
      simp

/-- The source `filter_string` coincides with the spec's rendering: each
parameter becomes `+`, each literal is copied, segments rejoined with `/`. -/
theorem filter_string_eq (t : ProcMacro.Topic) :
    t.filter_string = joinSlash (t.parts.map renderPart) := by
  unfold ProcMacro.Topic.filter_string
  rw [filterAcc_eq, trailJoin_dropLast]

theorem joinSlash_ne_nil_of_wf (s : Str) (rest : List Str) (hs : s ≠ []) :
    joinSlash (s :: rest) ≠ [] := by
  cases rest with
  | nil => simpa [joinSlash, slashTail]
  | cons r rs => rw [joinSlash_cons_cons]; simp [hs]

theorem joinSlash_inj (a b : List Str)
    (ha : ∀ s ∈ a, s ≠ [] ∧ '/' ∉ s) (hb : ∀ s ∈ b, s ≠ [] ∧ '/' ∉ s)
    (h : joinSlash a = joinSlash b) : a = b := by
  cases a with
  | nil =>
    cases b with
    | nil => rfl
    | cons s rest =>
      exact absurd h.symm
        (joinSlash_ne_nil_of_wf s rest (hb s (List.mem_cons_self _ _)).1)
  | cons s rest =>
    cases b with
    | nil =>
      exact absurd h
        (joinSlash_ne_nil_of_wf s rest (ha s (List.mem_cons_self _ _)).1)
    | cons s2 rest2 =>
      have h1 := splitSlash_joinSlash (s :: rest) (by simp)
        (fun x hx => (ha x hx).2)
      have h2 := splitSlash_joinSlash (s2 :: rest2) (by simp)
        (fun x hx => (hb x hx).2)
      rw [← h1, ← h2, h]

theorem renderPart_wf (p : ProcMacro.TopicPart) (hp : WFPart p) :
    renderPart p ≠ [] ∧ '/' ∉ renderPart p := by
  cases p with
  | Ident n => exact ⟨by simp [renderPart], by simp [renderPart]⟩
  | Literal l => exact hp

theorem renders_equiv (a b : List ProcMacro.TopicPart)
    (h : a.map renderPart = b.map renderPart) : equivSpec a b := by
  constructor
  · have := congrArg List.length h
    simpa using this
  · induction a generalizing b with
    | nil =>
      cases b with
      | nil => simp
      | cons y ys => simp at h
    | cons x xs ih =>
      cases b with
      | nil => simp at h
      | cons y ys =>
        simp only [List.map_cons, List.cons.injEq] at h
        intro p hp
        rcases List.mem_cons.mp hp with hhead | htail
        · subst hhead
          have h1 := h.1
          cases x with
          | Ident n => cases y <;> simp [partCompat]
          | Literal l =>
            cases y with
            | Ident n2 => simp [partCompat]
            | Literal l2 =>
              simp only [partCompat]
              simpa [renderPart] using h1
        · exact ih ys h.2 p htail

/-- C8: the filter string of every pattern replaces each parameter segment
with the single-level wildcard `+`, copies each literal verbatim, and
rejoins with `/`; and on any validated registry (pairwise non-equivalent,
well-formed patterns) the `all_generic_topics` list is exactly the filter
strings in registration order with pairwise distinct entries — so it is
de-duplicated as handed to the transport. -/
theorem filter_strings_c8 :
    (∀ t : ProcMacro.Topic, t.filter_string = joinSlash (t.parts.map renderPart)) ∧
    ∀ ts : List ProcMacro.Topic,
      List.Pairwise (fun a b => ¬ equivSpec a.parts b.parts) ts →
      (∀ t ∈ ts, ∀ part ∈ t.parts, WFPart part) →
      ProcMacro.all_generic_topics ts = ts.map ProcMacro.Topic.filter_string ∧
      List.Pairwise (fun x y => x ≠ y) (ProcMacro.all_generic_topics ts) := by
  refine ⟨filter_string_eq, fun ts hpair hwf => ⟨rfl, ?_⟩⟩
  unfold ProcMacro.all_generic_topics
  rw [List.pairwise_map]
  refine hpair.imp_of_mem ?_
  intro a b ha hb hne heq
  apply hne
  rw [filter_string_eq, filter_string_eq] at heq
  have hmap : a.parts.map renderPart = b.parts.map renderPart := by
    refine joinSlash_inj _ _ ?_ ?_ heq
    · intro s hs
      rcases List.mem_map.mp hs with ⟨p, hp, rfl⟩
      exact renderPart_wf p (hwf a ha p hp)
    · intro s hs
      rcases List.mem_map.mp hs with ⟨p, hp, rfl⟩
      exact renderPart_wf p (hwf b hb p hp)
  exact renders_equiv _ _ hmap

/-- C8 witness: the two patterns `<id>` and `<id>/<name>` are pairwise
non-equivalent and well-formed, and their transport list is `+` and `+/+`,
pairwise distinct, in registration order. -/
theorem filter_strings_c8_witness :
    List.Pairwise (fun a b => ¬ equivSpec a.parts b.parts)
      ([⟨[.Ident "id".data]⟩, ⟨[.Ident "id".data, .Ident "name".data]⟩] :
        List ProcMacro.Topic) ∧
    (∀ t ∈ ([⟨[.Ident "id".data]⟩, ⟨[.Ident "id".data, .Ident "name".data]⟩] :
        List ProcMacro.Topic), ∀ part ∈ t.parts, WFPart part) ∧
    ProcMacro.all_generic_topics
        [⟨[.Ident "id".data]⟩, ⟨[.Ident "id".data, .Ident "name".data]⟩] =
      ["+".data, "+/+".data] ∧
    List.Pairwise (fun x y => x ≠ y)
      (ProcMacro.all_generic_topics
        [⟨[.Ident "id".data]⟩, ⟨[.Ident "id".data, .Ident "name".data]⟩]) := by
  refine ⟨by decide, by decide, by decide, ?_⟩
  exact (filter_strings_c8.2
    [⟨[.Ident "id".data]⟩, ⟨[.Ident "id".data, .Ident "name".data]⟩]
    (by decide) (by decide)).2

/-! ## Claim C3: specificity ordering of the dispatch list -/

theorem mem_insertDesc {V : Type} (x z : Nat × Schema V)
    (l : List (Nat × Schema V)) :
    z ∈ insertDesc x l ↔ z = x ∨ z ∈ l := by
  induction l with
  | nil => simp [insertDesc]
  | cons y ys ih =>
    by_cases hle : lenOf y ≤ lenOf x
    · simp [insertDesc, hle]
    · simp [insertDesc, hle, ih]
      tauto

theorem perm_insertDesc {V : Type} (x : Nat × Schema V)
    (l : List (Nat × Schema V)) : (insertDesc x l).Perm (x :: l) := by
  induction l with
  | nil => exact List.Perm.refl _
  | cons y ys ih =>
    by_cases hle : lenOf y ≤ lenOf x
    · simp [insertDesc, hle]
    · simp only [insertDesc, hle, if_false]
      exact (ih.cons y).trans (List.Perm.swap x y ys)

theorem perm_sortByLenDesc {V : Type} (l : List (Nat × Schema V)) :
    (sortByLenDesc l).Perm l := by
  induction l with
  | nil => exact List.Perm.refl _
  | cons x xs ih =>
    exact (perm_insertDesc x (sortByLenDesc xs)).trans (ih.cons x)

theorem sorted_insertDesc {V : Type} (x : Nat × Schema V)
    (l : List (Nat × Schema V))
    (h : List.Sorted (fun a b => lenOf b ≤ lenOf a) l) :
    List.Sorted (fun a b => lenOf b ≤ lenOf a) (insertDesc x l) := by
  induction l with
  | nil => simp [insertDesc]
  | cons y ys ih =>
    rcases List.sorted_cons.mp h with ⟨hy, hys⟩
    by_cases hle : lenOf y ≤ lenOf x
    · simp only [insertDesc, hle, if_true]
      refine List.sorted_cons.mpr ⟨?_, h⟩
      intro z hz
      rcases List.mem_cons.mp hz with rfl | hz2
      · exact hle
      · exact le_trans (hy z hz2) hle
    · simp only [insertDesc, hle, if_false]
      refine List.sorted_cons.mpr ⟨?_, ih hys⟩
      intro z hz
      rcases (mem_insertDesc x z ys).mp hz with rfl | hz2
      · exact le_of_not_le hle
      · exact hy z hz2

theorem sorted_sortByLenDesc {V : Type} (l : List (Nat × Schema V)) :
    List.Sorted (fun a b => lenOf b ≤ lenOf a) (sortByLenDesc l) := by
  induction l with
  | nil => simp [sortByLenDesc]
  | cons x xs ih => exact sorted_insertDesc x (sortByLenDesc xs) ih

theorem filter_insertDesc {V : Type} (x : Nat × Schema V)
    (l : List (Nat × Schema V)) (L : Nat) :
    (insertDesc x l).filter (fun e => lenOf e == L) =
      (x :: l).filter (fun e => lenOf e == L) := by
  induction l with
  | nil => rfl
  | cons y ys ih =>
    by_cases hle : lenOf y ≤ lenOf x
    · simp [insertDesc, hle]
    · simp only [insertDesc, hle, if_false]
      by_cases hx : lenOf x = L
      · by_cases hy : lenOf y = L
        · exact absurd (hy ▸ hx ▸ le_refl (lenOf x)) hle
        · simp [List.filter_cons, hx, hy, ih]
      · by_cases hy : lenOf y = L
        · simp [List.filter_cons, hx, hy, ih]
        · simp [List.filter_cons, hx, hy, ih]

theorem filter_sortByLenDesc {V : Type} (l : List (Nat × Schema V)) (L : Nat) :
    (sortByLenDesc l).filter (fun e => lenOf e == L) =
      l.filter (fun e => lenOf e == L) := by
  induction l with
  | nil => rfl
  | cons x xs ih =>
    rw [show sortByLenDesc (x :: xs) = insertDesc x (sortByLenDesc xs) from rfl,
      filter_insertDesc, List.filter_cons, List.filter_cons, ih]

/-- C3: the dispatch list is the registration list sorted by descending
pattern length (every later candidate's pattern is no longer than every
earlier one's), and the sort is stable: for every length, the candidates of
that pattern length appear in exactly their registration order.  On the
concrete registry that registers `<id>` (length 1) before `<id>/<name>`
(length 2), decoding topic `3/alice` selects and returns the length-2
schema's value (declaration index 1), not the length-1 schema's. -/
theorem dispatch_order_c3 :
    (∀ (V : Type) (l : List (Nat × Schema V)),
      List.Sorted (fun a b => lenOf b ≤ lenOf a) (sortByLenDesc l) ∧
      (sortByLenDesc l).Perm l ∧
      ∀ L : Nat, (sortByLenDesc l).filter (fun e => lenOf e == L) =
        l.filter (fun e => lenOf e == L)) ∧
    registryOrd.from_topic_and_payload (Topic.from_str "3/alice".data)
        (('"' :: "p".data ++ ['"']).map Char.toNat) =
      .ok (1, [("id".data, .n 3), ("name".data, .s "alice".data),
        ("payload".data, .s "p".data)]) := by
  refine ⟨fun V l => ⟨sorted_sortByLenDesc l, perm_sortByLenDesc l,
    filter_sortByLenDesc l⟩, ?_⟩
  rfl

/-! ## Claim C4: field coverage -/

theorem consumeAll_missing (declared : List Str) (names : List Str) :
    ∀ (pending : List Str), (∀ x ∈ names, x ∈ declared) →
    (∃ x ∈ names, x ∉ pending) →
    ∃ d, consumeAll declared pending names = .error (.DuplicateFieldUse d) := by
  induction names with
  | nil => rintro pending _ ⟨x, hx, _⟩; exact absurd hx (List.not_mem_nil x)
  | cons n ns ih =>
    intro pending hdecl hmiss
    by_cases hn : n ∈ pending
    · have hstep : processField declared pending n = .ok (pending.erase n) := by
        simp [processField, hdecl n (List.mem_cons_self _ _), hn]
      rcases hmiss with ⟨x, hx, hxp⟩
      have hxn : x ≠ n := fun he => hxp (he ▸ hn)
      have hx2 : x ∈ ns := by
        rcases List.mem_cons.mp hx with he | h2
        · exact absurd he hxn
        · exact h2
      have hxe : x ∉ pending.erase n := fun hm => hxp (List.mem_of_mem_erase hm)
      rcases ih (pending.erase n)
        (fun y hy => hdecl y (List.mem_cons_of_mem _ hy)) ⟨x, hx2, hxe⟩ with ⟨d, hd⟩
      exact ⟨d, by simp [consumeAll, hstep, hd]⟩
    · refine ⟨n, ?_⟩
      simp [consumeAll, processField, hdecl n (List.mem_cons_self _ _), hn]

theorem consumeAll_cases (declared : List Str) (names : List Str) :
    ∀ (pending : List Str), pending.Nodup →
    (∀ x ∈ names, x ∈ declared) → (∀ x ∈ names, x ∈ pending) →
    (names.Nodup ∧ consumeAll declared pending names =
        .ok (pending.filter fun x => decide (x ∉ names))) ∨
    (¬names.Nodup ∧
      ∃ d, consumeAll declared pending names = .error (.DuplicateFieldUse d)) := by
  induction names with
  | nil =>
    intro pending _ _ _
    left
    refine ⟨List.nodup_nil, ?_⟩
    simp [consumeAll]
  | cons n ns ih =>
    intro pending hpend hdecl hmem
    have hn : n ∈ pending := hmem n (List.mem_cons_self _ _)
    have hstep : processField declared pending n = .ok (pending.erase n) := by
      simp [processField, hdecl n (List.mem_cons_self _ _), hn]
    by_cases hdup : n ∈ ns
    · right
      have hnnd : ¬(n :: ns).Nodup := by
        simp [List.nodup_cons, hdup]
      rcases consumeAll_missing declared ns (pending.erase n)
        (fun y hy => hdecl y (List.mem_cons_of_mem _ hy))
        ⟨n, hdup, hpend.not_mem_erase⟩ with ⟨d, hd⟩
      exact ⟨hnnd, d, by simp [consumeAll, hstep, hd]⟩
    · have hmem2 : ∀ x ∈ ns, x ∈ pending.erase n := by
        intro x hx
        have hxn : x ≠ n := fun he => hdup (he ▸ hx)
        exact (List.mem_erase_of_ne hxn).mpr (hmem x (List.mem_cons_of_mem _ hx))
      rcases ih (pending.erase n) (hpend.erase n)
        (fun y hy => hdecl y (List.mem_cons_of_mem _ hy)) hmem2 with
        ⟨hnd, hok⟩ | ⟨hnnd, d, hd⟩
      · left
        refine ⟨List.nodup_cons.mpr ⟨hdup, hnd⟩, ?_⟩
        have herase : pending.erase n = pending.filter fun x => x != n :=
          hpend.erase_eq_filter n
        have hfin : (pending.erase n).filter (fun x => decide (x ∉ ns)) =
            pending.filter fun x => decide (x ∉ n :: ns) := by
          rw [herase, List.filter_filter]
          refine List.filter_congr ?_
          intro a _
          by_cases h1 : a = n <;> by_cases h2 : a ∈ ns <;> simp [h1, h2]
        rw [← hfin]
        simp [consumeAll, hstep, hok]
      · right
        have : ¬(n :: ns).Nodup := fun hc => hnnd (List.nodup_cons.mp hc).2
        exact ⟨this, d, by simp [consumeAll, hstep, hd]⟩

/-- Occurrence count of a field name. -/
def countOcc (x : Str) : List Str → Nat
  | [] => 0
  | y :: ys => (if y = x then 1 else 0) + countOcc x ys

theorem countOcc_of_not_mem (x : Str) (l : List Str) (h : x ∉ l) :
    countOcc x l = 0 := by
  induction l with
  | nil => rfl
  | cons y ys ih =>
    have hy : y ≠ x := fun he => h (he ▸ List.mem_cons_self _ _)
    have hrest : x ∉ ys := fun hm => h (List.mem_cons_of_mem _ hm)
    simp [countOcc, hy, ih hrest]

theorem one_le_countOcc (x : Str) (l : List Str) (h : x ∈ l) :
    1 ≤ countOcc x l := by
  induction l with
  | nil => exact absurd h (List.not_mem_nil x)
  | cons y ys ih =>
    rcases List.mem_cons.mp h with rfl | hm
    · simp [countOcc]
    · have := ih hm
      by_cases hy : y = x <;> simp [countOcc, hy] <;> omega

theorem countOcc_le_one_of_nodup (x : Str) (l : List Str) (h : l.Nodup) :
    countOcc x l ≤ 1 := by
  induction l with
  | nil => simp [countOcc]
  | cons y ys ih =>
    rcases List.nodup_cons.mp h with ⟨hy, hys⟩
    by_cases he : y = x
    · subst he
      simp [countOcc, countOcc_of_not_mem y ys hy]
    · simp [countOcc, he, ih hys]

theorem nodup_of_countOcc_le_one (l : List Str)
    (h : ∀ a, countOcc a l ≤ 1) : l.Nodup := by
  induction l with
  | nil => exact List.nodup_nil
  | cons y ys ih =>
    refine List.nodup_cons.mpr ⟨?_, ?_⟩
    · intro hm
      have h1 := one_le_countOcc y ys hm
      have h2 := h y
      simp [countOcc] at h2
      omega
    · refine ih fun a => ?_
      have := h a
      by_cases hy : y = a <;> simp [countOcc, hy] at this <;> omega

theorem validateVariant_of_ok (declared : List Str) (payload : Option Str)
    (pattern : List ProcMacro.TopicPart) (filt : List Str)
    (hok : consumeAll declared declared (consumedNames payload pattern) = .ok filt) :
    validateVariant declared payload pattern =
      if filt = [] then .ok () else .error (.UnusedFields filt) := by
  unfold validateVariant
  rw [hok]

theorem validateVariant_of_err (declared : List Str) (payload : Option Str)
    (pattern : List ProcMacro.TopicPart) (e : RegError)
    (herr : consumeAll declared declared (consumedNames payload pattern) = .error e) :
    validateVariant declared payload pattern = .error e := by
  unfold validateVariant
  rw [herr]

/-- C4: with distinct declared field names and all consumed names declared
(otherwise `find_field` aborts first with the unknown-field error), and
writing `consumed` for the payload binding followed by the pattern's
parameters in order: construction fails with `DuplicateFieldUse` whenever
some field is consumed more than once (bound to two parameters, or to a
parameter and the payload); it fails with `UnusedFields` on the declared
fields left unconsumed when there is no duplicate but some field is unused;
and it succeeds exactly when every declared field is consumed exactly
once. -/
theorem field_coverage_c4 (declared : List Str) (payload : Option Str)
    (pattern : List ProcMacro.TopicPart)
    (hnd : declared.Nodup)
    (hsub : ∀ x ∈ consumedNames payload pattern, x ∈ declared) :
    ((∃ d, 2 ≤ countOcc d (consumedNames payload pattern)) →
      ∃ d, validateVariant declared payload pattern =
        .error (.DuplicateFieldUse d)) ∧
    ((consumedNames payload pattern).Nodup →
      (∃ x ∈ declared, x ∉ consumedNames payload pattern) →
      ∃ names, validateVariant declared payload pattern =
          .error (.UnusedFields names) ∧ names ≠ [] ∧
        ∀ x ∈ names, x ∈ declared ∧ x ∉ consumedNames payload pattern) ∧
    (validateVariant declared payload pattern = .ok () ↔
      ∀ x ∈ declared, countOcc x (consumedNames payload pattern) = 1) := by
  have hcases := consumeAll_cases declared (consumedNames payload pattern)
    declared hnd hsub (fun x hx => hsub x hx)
  refine ⟨?_, ?_, ?_⟩
  · rintro ⟨d, hd⟩
    have hnnd : ¬(consumedNames payload pattern).Nodup := by
      intro hnd2
      have := countOcc_le_one_of_nodup d _ hnd2
      omega
    rcases hcases with ⟨hnd2, _⟩ | ⟨_, d2, hd2⟩
    · exact absurd hnd2 hnnd
    · exact ⟨d2, validateVariant_of_err _ _ _ _ hd2⟩
  · intro hnd2 hex
    rcases hcases with ⟨_, hok⟩ | ⟨hnnd, _⟩
    · rcases hex with ⟨x, hxd, hxc⟩
      have hxf : x ∈ declared.filter
          fun y => decide (y ∉ consumedNames payload pattern) :=
        List.mem_filter.mpr ⟨hxd, by simp [hxc]⟩
      have hne := List.ne_nil_of_mem hxf
      refine ⟨declared.filter fun y => decide (y ∉ consumedNames payload pattern),
        ?_, hne, ?_⟩
      · rw [validateVariant_of_ok _ _ _ _ hok, if_neg hne]
      · intro y hy
        have := List.mem_filter.mp hy
        exact ⟨this.1, by simpa using this.2⟩
    · exact absurd hnd2 hnnd
  · constructor
    · intro hok2
      rcases hcases with ⟨hnd2, hok⟩ | ⟨_, d2, hd2⟩
      · intro x hx
        have hval := validateVariant_of_ok _ _ _ _ hok
        rw [hok2] at hval
        have hfil : declared.filter
            (fun y => decide (y ∉ consumedNames payload pattern)) = [] := by
          by_contra hne
          rw [if_neg hne] at hval
          exact Except.noConfusion hval
        have hxin : x ∈ consumedNames payload pattern := by
          by_contra hxc
          have : x ∈ declared.filter
              fun y => decide (y ∉ consumedNames payload pattern) :=
            List.mem_filter.mpr ⟨hx, by simp [hxc]⟩
          rw [hfil] at this
          exact absurd this (List.not_mem_nil x)
        have h1 := one_le_countOcc x _ hxin
        have h2 := countOcc_le_one_of_nodup x _ hnd2
        omega
      · rw [validateVariant_of_err _ _ _ _ hd2] at hok2
        exact Except.noConfusion hok2
    · intro hcount
      have hnd2 : (consumedNames payload pattern).Nodup := by
        refine nodup_of_countOcc_le_one _ fun a => ?_
        by_cases ha : a ∈ consumedNames payload pattern
        · exact le_of_eq (hcount a (hsub a ha))
        · rw [countOcc_of_not_mem a _ ha]
          omega
      rcases hcases with ⟨_, hok⟩ | ⟨hnnd, _⟩
      · have hfil : declared.filter
            (fun y => decide (y ∉ consumedNames payload pattern)) = [] := by
          rw [List.filter_eq_nil]
          intro a ha
          have h1 := hcount a ha
          have hin : a ∈ consumedNames payload pattern := by
            by_contra hac
            rw [countOcc_of_not_mem a _ hac] at h1
            omega
          simp [hin]
        rw [validateVariant_of_ok _ _ _ _ hok, if_pos hfil]
      · exact absurd hnd2 hnnd

/-- C4 witness: the spec's example — fields `name`, `id`, `payload` with
pattern `<id>/<name>` and no payload binding — fails with an
`UnusedFields` list that is non-empty and holds only declared, unconsumed
fields. -/
theorem field_coverage_c4_witness :
    (["name".data, "id".data, "payload".data] : List Str).Nodup ∧
    (∀ x ∈ consumedNames none [.Ident "id".data, .Ident "name".data],
      x ∈ (["name".data, "id".data, "payload".data] : List Str)) ∧
    ∃ names, validateVariant ["name".data, "id".data, "payload".data] none
        [.Ident "id".data, .Ident "name".data] =
        .error (.UnusedFields names) ∧ names ≠ [] ∧
      ∀ x ∈ names, x ∈ (["name".data, "id".data, "payload".data] : List Str) ∧
        x ∉ consumedNames none [.Ident "id".data, .Ident "name".data] := by
  refine ⟨by decide, by decide, ?_⟩
  exact (field_coverage_c4 ["name".data, "id".data, "payload".data] none
    [.Ident "id".data, .Ident "name".data] (by decide) (by decide)).2.1
    (by decide) (by decide)

/-! ## Claim C1: the round-trip law

Supporting lemmas: what a successful topic walk implies, how a schema
parses its own encoding, and how the dispatch loop reaches the encoding
schema. -/

theorem walk_ok_length {V : Type} (S : Schema V)
    (p : List ProcMacro.TopicPart) :
    ∀ (segs : List Str) r, parseTopicWalk S p segs = .ok r →
      p.length ≤ segs.length := by
  induction p with
  | nil => intro segs r _; simp
  | cons part ps ih =>
    intro segs r h
    cases part with
    | Ident name =>
      cases segs with
      | nil =>
        rw [show parseTopicWalk S (.Ident name :: ps) [] =
          .error (.MissingTopicLayer name) from rfl] at h
        exact Except.noConfusion h
      | cons v rest =>
        simp only [parseTopicWalk] at h
        cases hd : S.dec name v with
        | none => rw [hd] at h; exact Except.noConfusion h
        | some val =>
          rw [hd] at h
          cases hw : parseTopicWalk S ps rest with
          | error e => rw [hw] at h; exact Except.noConfusion h
          | ok pr =>
            have := ih rest pr hw
            simp only [List.length_cons]
            omega
    | Literal lit =>
      cases segs with
      | nil =>
        rw [show parseTopicWalk S (.Literal lit :: ps) [] =
          .error (.MissingTopicLayer lit) from rfl] at h
        exact Except.noConfusion h
      | cons v rest =>
        simp only [parseTopicWalk] at h
        by_cases hv : v = lit
        · rw [if_pos hv] at h
          have := ih rest r h
          simp only [List.length_cons]
          omega
        · rw [if_neg hv] at h
          exact Except.noConfusion h

theorem walk_ok_literal {V : Type} (S : Schema V)
    (p : List ProcMacro.TopicPart) :
    ∀ (segs : List Str) r, parseTopicWalk S p segs = .ok r →
    ∀ (k : Nat) (hk : k < p.length) (lit : Str),
      p.get ⟨k, hk⟩ = .Literal lit →
    ∃ hk2 : k < segs.length, segs.get ⟨k, hk2⟩ = lit := by
  induction p with
  | nil => intro segs r _ k hk; exact absurd hk (by simp)
  | cons part ps ih =>
    intro segs r h k hk lit hlit
    cases segs with
    | nil =>
      exfalso
      cases part with
      | Ident name =>
        rw [show parseTopicWalk S (.Ident name :: ps) [] =
          .error (.MissingTopicLayer name) from rfl] at h
        exact Except.noConfusion h
      | Literal l2 =>
        rw [show parseTopicWalk S (.Literal l2 :: ps) [] =
          .error (.MissingTopicLayer l2) from rfl] at h
        exact Except.noConfusion h
    | cons v rest =>
      cases part with
      | Ident name =>
        simp only [parseTopicWalk] at h
        cases hd : S.dec name v with
        | none => rw [hd] at h; exact Except.noConfusion h
        | some val =>
          rw [hd] at h
          cases hw : parseTopicWalk S ps rest with
          | error e => rw [hw] at h; exact Except.noConfusion h
          | ok pr =>
            cases k with
            | zero => exact absurd hlit (by simp)
            | succ k2 =>
              have hk2 : k2 < ps.length := by simpa using hk
              have hlit2 : ps.get ⟨k2, hk2⟩ = .Literal lit := by
                simpa using hlit
              rcases ih rest pr hw k2 hk2 lit hlit2 with ⟨hlt, hget⟩
              exact ⟨by simpa using Nat.succ_lt_succ hlt, by simpa using hget⟩
      | Literal plit =>
        simp only [parseTopicWalk] at h
        by_cases hv : v = plit
        · rw [if_pos hv] at h
          cases k with
          | zero =>
            have hpl : plit = lit := by simpa using hlit
            exact ⟨by simp, by simp [hv, hpl]⟩
          | succ k2 =>
            have hk2 : k2 < ps.length := by simpa using hk
            have hlit2 : ps.get ⟨k2, hk2⟩ = .Literal lit := by
              simpa using hlit
            rcases ih rest r h k2 hk2 lit hlit2 with ⟨hlt, hget⟩
            exact ⟨by simpa using Nat.succ_lt_succ hlt, by simpa using hget⟩
        · rw [if_neg hv] at h
          exact Except.noConfusion h

theorem parseTopicWalk_encode {V : Type} (S : Schema V) (σ : Str → V)
    (p : List ProcMacro.TopicPart)
    (hdec : ∀ n ∈ paramNames p, S.dec n (S.enc n (σ n)) = some (σ n)) :
    parseTopicWalk S p (p.map (encSeg S σ)) =
      .ok ((paramNames p).map (fun n => (n, σ n)), []) := by
  induction p with
  | nil => rfl
  | cons part ps ih =>
    cases part with
    | Ident name =>
      have hd := hdec name (by simp [paramNames])
      have hrest := ih fun n hn => hdec n (by simp [paramNames, hn])
      simp only [List.map_cons, parseTopicWalk, encSeg, hd, hrest, paramNames]
    | Literal lit =>
      have hrest := ih fun n hn => hdec n (by simp [paramNames, hn])
      simp only [List.map_cons, parseTopicWalk, encSeg, eq_self_iff_true,
        if_true, hrest, paramNames]

theorem parseVariant_encode {V : Type} (S : Schema V) (σ : Str → V)
    (pl : List Nat)
    (hdec : ∀ n ∈ paramNames S.pattern,
      S.dec n (S.enc n (σ n)) = some (σ n))
    (hpl : ∀ p, S.payload = some p → S.pdeser pl = .ok (σ p)) :
    parseVariant S (encodeSegs S σ) pl = .ok (variantValue S σ) := by
  unfold parseVariant
  rw [show encodeSegs S σ = S.pattern.map (encSeg S σ) from rfl,
    parseTopicWalk_encode S σ S.pattern hdec]
  cases hp : S.payload with
  | none => simp [variantValue, hp]
  | some p =>
    rw [hpl p hp]
    simp [variantValue, hp]

theorem mem_paramNames (p : List ProcMacro.TopicPart) (n : Str)
    (h : ProcMacro.TopicPart.Ident n ∈ p) : n ∈ paramNames p := by
  induction p with
  | nil => exact absurd h (List.not_mem_nil _)
  | cons part ps ih =>
    rcases List.mem_cons.mp h with he | hm
    · rw [← he]
      simp [paramNames]
    · cases part <;> simp [paramNames, ih hm]

theorem foldl_push_inner (segs : List Str) :
    ∀ (x : Str), x ≠ [] →
      segs.foldl Topic.push ⟨x⟩ = ⟨x ++ slashTail segs⟩ := by
  induction segs with
  | nil => intro x _; simp [slashTail]
  | cons s ss ih =>
    intro x hx
    have hpush : Topic.push ⟨x⟩ s = ⟨x ++ '/' :: s⟩ := by
      show (⟨(if x.length ≠ 0 then x ++ ['/'] else x) ++ s⟩ : Topic) =
        ⟨x ++ '/' :: s⟩
      rw [if_pos (show x.length ≠ 0 from
        fun h0 => hx (List.length_eq_zero.mp h0))]
      simp
    rw [List.foldl_cons, hpush, ih (x ++ '/' :: s) (by simp)]
    simp [slashTail]

theorem foldl_push_new (segs : List Str) (hne : segs ≠ [])
    (hseg : ∀ s ∈ segs, s ≠ []) :
    segs.foldl Topic.push Topic.new = ⟨joinSlash segs⟩ := by
  cases segs with
  | nil => exact absurd rfl hne
  | cons s ss =>
    have h1 : Topic.push Topic.new s = ⟨s⟩ := by
      simp [Topic.push, Topic.new]
    rw [List.foldl_cons, h1,
      foldl_push_inner ss s (hseg s (List.mem_cons_self _ _))]
    rfl

theorem push_topic_eq {V : Type} (S : Schema V) (σ : Str → V) (t0 : Topic)
    (pl0 : List Nat) :
    push_topic_and_payload S σ t0 pl0 =
      match S.payload with
      | none => .ok ((encodeSegs S σ).foldl Topic.push t0, pl0)
      | some pname =>
        match S.pser (σ pname) with
        | .error e => .error e
        | .ok bytes => .ok ((encodeSegs S σ).foldl Topic.push t0, pl0 ++ bytes) :=
  rfl

theorem into_topic_none {V : Type} (S : Schema V) (σ : Str → V)
    (hp : S.payload = none) :
    into_topic_and_payload S σ =
      .ok ((encodeSegs S σ).foldl Topic.push Topic.new, []) := by
  rw [show into_topic_and_payload S σ =
    push_topic_and_payload S σ Topic.new [] from rfl, push_topic_eq, hp]

theorem into_topic_some {V : Type} (S : Schema V) (σ : Str → V) (p : Str)
    (bs : List Nat) (hp : S.payload = some p) (hser : S.pser (σ p) = .ok bs) :
    into_topic_and_payload S σ =
      .ok ((encodeSegs S σ).foldl Topic.push Topic.new, bs) := by
  rw [show into_topic_and_payload S σ =
    push_topic_and_payload S σ Topic.new [] from rfl, push_topic_eq, hp]
  show (match S.pser (σ p) with
    | Except.error e => Except.error e
    | Except.ok bytes =>
      Except.ok ((encodeSegs S σ).foldl Topic.push Topic.new, [] ++ bytes)) =
    Except.ok ((encodeSegs S σ).foldl Topic.push Topic.new, bs)
  rw [hser]
  rfl

theorem exists_split_first {α : Type} (a : α) (l : List α) (h : a ∈ l) :
    ∃ s t, l = s ++ a :: t ∧ a ∉ s := by
  induction l with
  | nil => exact absurd h (List.not_mem_nil a)
  | cons x xs ih =>
    by_cases hx : x = a
    · exact ⟨[], xs, by rw [hx]; rfl, List.not_mem_nil a⟩
    · have hm : a ∈ xs := by
        rcases List.mem_cons.mp h with he | hm2
        · exact absurd he.symm hx
        · exact hm2
      rcases ih hm with ⟨s, t, hst, hnot⟩
      refine ⟨x :: s, t, by rw [hst]; rfl, ?_⟩
      intro hmem
      rcases List.mem_cons.mp hmem with he | hs
      · exact hx he.symm
      · exact hnot hs

theorem eq_of_fst_nodup {α : Type} (l : List (Nat × α))
    (h : (l.map Prod.fst).Nodup) (x y : Nat × α) (hx : x ∈ l) (hy : y ∈ l)
    (hf : x.1 = y.1) : x = y := by
  induction l with
  | nil => exact absurd hx (List.not_mem_nil x)
  | cons z zs ih =>
    rw [List.map_cons] at h
    rcases List.nodup_cons.mp h with ⟨hz, hzs⟩
    rcases List.mem_cons.mp hx with rfl | hx2
    · rcases List.mem_cons.mp hy with rfl | hy2
      · rfl
      · exfalso
        apply hz
        rw [hf]
        exact List.mem_map_of_mem Prod.fst hy2
    · rcases List.mem_cons.mp hy with rfl | hy2
      · exfalso
        apply hz
        rw [← hf]
        exact List.mem_map_of_mem Prod.fst hx2
      · exact ih hzs hx2 hy2

theorem partCompat_symm (a b : ProcMacro.TopicPart) (h : partCompat a b) :
    partCompat b a := by
  cases a with
  | Ident n => cases b <;> simp [partCompat]
  | Literal l =>
    cases b with
    | Ident m => simp [partCompat]
    | Literal l2 =>
      simp only [partCompat] at h ⊢
      exact h.symm

theorem equivSpec_symm (a b : List ProcMacro.TopicPart) (h : equivSpec a b) :
    equivSpec b a := by
  rcases h with ⟨hlen, hall⟩
  refine ⟨hlen.symm, fun p hp => ?_⟩
  rw [← List.zip_swap a b] at hp
  rcases List.mem_map.mp hp with ⟨q, hq, rfl⟩
  exact partCompat_symm _ _ (hall q hq)

theorem not_equiv_pos (a b : List ProcMacro.TopicPart)
    (hlen : a.length = b.length) (h : ¬ equivSpec a b) :
    ∃ (k : Nat) (hka : k < a.length) (hkb : k < b.length) (la lb : Str),
      a.get ⟨k, hka⟩ = .Literal la ∧ b.get ⟨k, hkb⟩ = .Literal lb ∧
      la ≠ lb := by
  unfold equivSpec at h
  push_neg at h
  rcases h hlen with ⟨p, hp, hcomp⟩
  rcases List.mem_iff_get.mp hp with ⟨n, hn⟩
  have hza : (a.zip b).length ≤ a.length := by
    rw [List.length_zip]
    exact min_le_left _ _
  have hzb : (a.zip b).length ≤ b.length := by
    rw [List.length_zip]
    exact min_le_right _ _
  have hka : (n : Nat) < a.length := lt_of_lt_of_le n.2 hza
  have hkb : (n : Nat) < b.length := lt_of_lt_of_le n.2 hzb
  have hzip := @List.get_zip _ _ a b n
  rw [hn] at hzip
  rcases hpa : a.get ⟨n, hka⟩ with na | la
  · exfalso
    apply hcomp
    have hp1 : p.1 = ProcMacro.TopicPart.Ident na := by
      rw [hzip]
      simpa using hpa
    rw [hp1]
    simp [partCompat]
  · rcases hpb : b.get ⟨n, hkb⟩ with nb | lb
    · exfalso
      apply hcomp
      have hp1 : p.1 = ProcMacro.TopicPart.Literal la := by
        rw [hzip]
        simpa using hpa
      have hp2 : p.2 = ProcMacro.TopicPart.Ident nb := by
        rw [hzip]
        simpa using hpb
      rw [hp1, hp2]
      simp [partCompat]
    · refine ⟨n, hka, hkb, la, lb, hpa, hpb, ?_⟩
      intro he
      apply hcomp
      have hp1 : p.1 = ProcMacro.TopicPart.Literal la := by
        rw [hzip]
        simpa using hpa
      have hp2 : p.2 = ProcMacro.TopicPart.Literal lb := by
        rw [hzip]
        simpa using hpb
      rw [hp1, hp2]
      simp [partCompat, he]

theorem firstOk_append {V : Type} (l₁ l₂ : List (Nat × Schema V)) (i : Nat)
    (S : Schema V) (segs : List Str) (pl : List Nat) (b : List (Str × V))
    (hfail : ∀ x ∈ l₁, exceptIsOk (parseVariant x.2 segs pl) = false)
    (hok : parseVariant S segs pl = .ok b) :
    firstOk (l₁ ++ (i, S) :: l₂) segs pl = .ok (i, b) := by
  induction l₁ with
  | nil =>
    simp only [List.nil_append, firstOk, hok]
  | cons x xs ih =>
    rcases x with ⟨j, T⟩
    have hx : exceptIsOk (parseVariant T segs pl) = false :=
      hfail (j, T) (List.mem_cons_self _ _)
    simp only [List.cons_append, firstOk]
    cases hp : parseVariant T segs pl with
    | ok bb =>
      rw [hp] at hx
      exact absurd hx (by simp [exceptIsOk])
    | error e =>
      exact ih fun y hy => hfail y (List.mem_cons_of_mem _ hy)

/-- C1 amended (round trip): over a validated registry (pairwise
non-equivalent, well-formed patterns), for every registered shape `S` whose
pattern has at least one segment, and every value `σ` of `S`'s shape whose
topic-bound fields convert losslessly to single non-empty `/`-free segments
and whose payload codec round-trips, encoding via
`push_topic_and_payload`/`into_topic_and_payload` succeeds and decoding the
resulting pair via `from_topic_and_payload` over the same registry returns
exactly `S`'s variant (its declaration index) with the original field
values. -/
theorem round_trip_c1 {V : Type} (R : Registry V) (i : Nat) (S : Schema V)
    (σ : Str → V)
    (hi : i < R.variants.length)
    (hS : R.variants.get ⟨i, hi⟩ = S)
    (hpair : List.Pairwise (fun a b => ¬ equivSpec a.pattern b.pattern)
      R.variants)
    (hwf : ∀ part ∈ S.pattern, WFPart part)
    (hne : S.pattern ≠ [])
    (hdec : ∀ n ∈ paramNames S.pattern,
      S.dec n (S.enc n (σ n)) = some (σ n) ∧ S.enc n (σ n) ≠ [] ∧
        '/' ∉ S.enc n (σ n))
    (hpay : ∀ p, S.payload = some p →
      ∃ bs, S.pser (σ p) = .ok bs ∧ S.pdeser bs = .ok (σ p)) :
    ∃ t pl, into_topic_and_payload S σ = .ok (t, pl) ∧
      R.from_topic_and_payload t pl = .ok (i, variantValue S σ) := by
  have hsegs_wf : ∀ s ∈ encodeSegs S σ, s ≠ [] ∧ '/' ∉ s := by
    intro s hs
    rcases List.mem_map.mp hs with ⟨part, hpart, rfl⟩
    cases part with
    | Ident n =>
      have hn := hdec n (mem_paramNames S.pattern n hpart)
      exact ⟨hn.2.1, hn.2.2⟩
    | Literal l => exact hwf _ hpart
  have hsegs_ne : encodeSegs S σ ≠ [] := by
    intro hnil
    exact hne (List.map_eq_nil.mp hnil)
  have hlen_segs : (encodeSegs S σ).length = S.pattern.length :=
    List.length_map _ _
  have htopic : (encodeSegs S σ).foldl Topic.push Topic.new =
      ⟨joinSlash (encodeSegs S σ)⟩ :=
    foldl_push_new _ hsegs_ne fun s hs => (hsegs_wf s hs).1
  have hlayers : (Topic.mk (joinSlash (encodeSegs S σ))).layers =
      encodeSegs S σ :=
    splitSlash_joinSlash _ hsegs_ne fun s hs => (hsegs_wf s hs).2
  have hdecode : ∀ pl : List Nat,
      (∀ p, S.payload = some p → S.pdeser pl = .ok (σ p)) →
      R.from_topic_and_payload ⟨joinSlash (encodeSegs S σ)⟩ pl =
        .ok (i, variantValue S σ) := by
    intro pl hpl
    have hok : parseVariant S (encodeSegs S σ) pl = .ok (variantValue S σ) :=
      parseVariant_encode S σ pl (fun n hn => (hdec n hn).1) hpl
    have hmem_enum : (i, S) ∈ R.variants.enum := by
      rw [List.mem_enum_iff_getElem?]
      rw [List.getElem?_eq_getElem hi]
      rw [← List.get_eq_getElem R.variants ⟨i, hi⟩, hS]
    have hmem : (i, S) ∈ dispatchList R :=
      ((perm_sortByLenDesc _).mem_iff).mpr hmem_enum
    rcases exists_split_first (i, S) (dispatchList R) hmem with
      ⟨l₁, l₂, hsplit, hnotin⟩
    have hfst : ((dispatchList R).map Prod.fst).Nodup := by
      have hperm := (perm_sortByLenDesc R.variants.enum).map Prod.fst
      rw [List.enum_map_fst] at hperm
      exact hperm.nodup_iff.mpr (List.nodup_range _)
    have hsorted := sorted_sortByLenDesc R.variants.enum
    have hge : ∀ x ∈ l₁, lenOf (i, S) ≤ lenOf x := by
      have hsorted2 : List.Sorted (fun a b => lenOf b ≤ lenOf a)
          (l₁ ++ (i, S) :: l₂) := by
        rw [← hsplit]
        exact hsorted
      rcases List.pairwise_append.mp hsorted2 with ⟨_, _, hcross⟩
      intro x hx
      exact hcross x hx (i, S) (List.mem_cons_self _ _)
    have hfail : ∀ x ∈ l₁,
        exceptIsOk (parseVariant x.2 (encodeSegs S σ) pl) = false := by
      rintro ⟨j, T⟩ hx
      cases hres : parseVariant T (encodeSegs S σ) pl with
      | error e => rfl
      | ok bb =>
        exfalso
        have hmemT : (j, T) ∈ dispatchList R := by
          rw [hsplit]
          exact List.mem_append.mpr (Or.inl hx)
        have hmemT2 : (j, T) ∈ R.variants.enum :=
          ((perm_sortByLenDesc _).mem_iff).mp hmemT
        have hj := List.mem_enum_iff_getElem?.mp hmemT2
        rcases List.getElem?_eq_some.mp hj with ⟨hjlt, hTj⟩
        have hTj2 : R.variants.get ⟨j, hjlt⟩ = T := by
          rw [List.get_eq_getElem]
          exact hTj
        have hwok : ∃ r, parseTopicWalk T T.pattern (encodeSegs S σ) = .ok r := by
          unfold parseVariant at hres
          cases hw : parseTopicWalk T T.pattern (encodeSegs S σ) with
          | error e =>
            rw [hw] at hres
            exact Except.noConfusion hres
          | ok r => exact ⟨r, rfl⟩
        rcases hwok with ⟨r, hwok⟩
        have hlenT : T.pattern.length ≤ (encodeSegs S σ).length :=
          walk_ok_length T T.pattern _ r hwok
        have hgeS : S.pattern.length ≤ T.pattern.length := hge (j, T) hx
        have hlenEq : T.pattern.length = S.pattern.length := by
          rw [hlen_segs] at hlenT
          omega
        have hji : j ≠ i := by
          intro he
          apply hnotin
          have heq : (j, T) = (i, S) :=
            eq_of_fst_nodup (dispatchList R) hfst (j, T) (i, S) hmemT hmem he
          rw [← heq]
          exact hx
        have hnequiv : ¬ equivSpec T.pattern S.pattern := by
          have hpg := List.pairwise_iff_get.mp hpair
          rcases Nat.lt_or_ge j i with hlt | hge2
          · have := hpg ⟨j, hjlt⟩ ⟨i, hi⟩ (Fin.mk_lt_mk.mpr hlt)
            rw [hTj2, hS] at this
            exact this
          · have hlt2 : i < j := by omega
            have := hpg ⟨i, hi⟩ ⟨j, hjlt⟩ (Fin.mk_lt_mk.mpr hlt2)
            rw [hTj2, hS] at this
            intro hcon
            exact this (equivSpec_symm _ _ hcon)
        rcases not_equiv_pos T.pattern S.pattern hlenEq hnequiv with
          ⟨k, hka, hkb, la, lb, hla, hlb, hlalb⟩
        have hkc : k < (encodeSegs S σ).length := by
          rw [hlen_segs]
          exact hkb
        have hsegk : (encodeSegs S σ).get ⟨k, hkc⟩ = lb := by
          have h1 : (encodeSegs S σ).get ⟨k, hkc⟩ =
              encSeg S σ (S.pattern.get ⟨k, hkb⟩) := by
            rw [List.get_eq_getElem, List.get_eq_getElem]
            exact List.getElem_map (encSeg S σ)
          rw [h1, hlb]
          rfl
        rcases walk_ok_literal T T.pattern _ r hwok k hka la hla with
          ⟨hk2, hgetk⟩
        have : la = lb := by
          rw [← hgetk, ← hsegk]
        exact hlalb this
    rw [show R.from_topic_and_payload ⟨joinSlash (encodeSegs S σ)⟩ pl =
      firstOk (dispatchList R) (Topic.mk (joinSlash (encodeSegs S σ))).layers
        pl from rfl, hlayers, hsplit]
    exact firstOk_append l₁ l₂ i S _ pl _ hfail hok
  cases hp : S.payload with
  | none =>
    refine ⟨⟨joinSlash (encodeSegs S σ)⟩, [], ?_, ?_⟩
    · rw [into_topic_none S σ hp, htopic]
    · refine hdecode [] fun p hp2 => ?_
      rw [hp] at hp2
      exact Option.noConfusion hp2
  | some p =>
    rcases hpay p hp with ⟨bs, hser, hdeser⟩
    refine ⟨⟨joinSlash (encodeSegs S σ)⟩, bs, ?_, ?_⟩
    · rw [into_topic_some S σ p bs hp hser, htopic]
    · refine hdecode bs fun q hq => ?_
      rw [hp] at hq
      rw [← Option.some.inj hq]
      exact hdeser

/-- The value assignment used for the concrete round-trip instance on
`registryOrd`: `id = 3`, `name = "alice"`, payload `"p"`. -/
def sigmaOrd : Str → Val := fun n =>
  if n = "id".data then .n 3
  else if n = "name".data then .s "alice".data
  else .s "p".data

/-- C1 counterexample: the claim as stated fails for zero-length patterns.
The registry that registers `topic = ""` (payload `<x>`, a `String` field,
so every field-to-string concern is vacuous and the payload codec
round-trips) together with `topic = "<y>"` (payload `<p>`) passes the
macro's collision check, yet encoding the empty-pattern shape's value and
re-decoding the resulting pair returns the other shape's value: the empty
topic string splits into one empty segment, which the one-parameter
pattern, tried first as the longer candidate, accepts. -/
theorem round_trip_ce_c1 :
    ProcMacro.registerOk [⟨[]⟩, ⟨[.Ident "y".data]⟩] = true ∧
    List.Pairwise (fun a b => ¬ equivSpec a.pattern b.pattern)
      registryEmpty.variants ∧
    into_topic_and_payload schemaEmptyPat (fun _ => .s "xval".data) =
      .ok (Topic.new, ('"' :: "xval".data ++ ['"']).map Char.toNat) ∧
    registryEmpty.from_topic_and_payload Topic.new
        (('"' :: "xval".data ++ ['"']).map Char.toNat) =
      .ok (1, [("y".data, .s []), ("p".data, .s "xval".data)]) ∧
    ((1 : Nat), [("y".data, Val.s []), ("p".data, Val.s "xval".data)]) ≠
      ((0 : Nat), variantValue schemaEmptyPat (fun _ => .s "xval".data)) := by
  exact ⟨rfl, by decide, rfl, rfl, by decide⟩

/-- C1 witness: the amended round-trip theorem applied to the validated
registry of `<id>` (payload `<name>`) and `<id>/<name>` (payload
`<payload>`), decoding the encoding of the length-2 shape's value
`id = 3, name = "alice", payload = "p"`. -/
theorem round_trip_c1_witness :
    List.Pairwise (fun a b => ¬ equivSpec a.pattern b.pattern)
      registryOrd.variants ∧
    schemaV1.pattern ≠ [] ∧
    ∃ t pl, into_topic_and_payload schemaV1 sigmaOrd = .ok (t, pl) ∧
      registryOrd.from_topic_and_payload t pl =
        .ok (1, variantValue schemaV1 sigmaOrd) := by
  refine ⟨by decide, by decide, ?_⟩
  refine round_trip_c1 registryOrd 1 schemaV1 sigmaOrd (by decide) rfl
    (by decide) (by decide) (by decide) (by decide) ?_
  intro p hp
  have hpp : "payload".data = p := Option.some.inj hp
  refine ⟨('"' :: "p".data ++ ['"']).map Char.toNat, ?_, ?_⟩
  · rw [← hpp]
    rfl
  · rw [← hpp]
    rfl

end MqttMacro
